import Mathlib

/-!
Shallow embedding of the ownership-resolution core of depot_tools.

The embedding follows `owners_client.py` line by line:

* `_owner_combinations`  → `DepotTools.ownerCombinations`
* `OwnersClient.GetFilesApprovalStatus` → `DepotTools.getFilesApprovalStatus`
* `OwnersClient.SuggestOwners` → `DepotTools.suggestOwners`
* `DepotToolsClient.ListOwnersForFile` → `DepotTools.listOwnersForFileD`

Python dictionaries are modelled as insertion-ordered association lists
(`dictUpdate` updates the first binding in place and appends new keys at the
end, exactly like a Python dict), Python `sorted` is modelled by a stable
insertion sort (`stableSortBy`), and Python sets of paths are modelled by
duplicate-free lists, compared only through membership and cardinality, which
is all the source uses them for.

The split-CL plan serializer (`split_cl.py`) is not part of the sources; it is
modelled from the specification in the second half of this file.
-/

namespace DepotTools

/-- Status constant APPROVED of owners_client.py. -/
def APPROVED : String := "APPROVED"

/-- Status constant PENDING of owners_client.py. -/
def PENDING : String := "PENDING"

/-- Status constant INSUFFICIENT_REVIEWERS of owners_client.py. -/
def INSUFFICIENT_REVIEWERS : String := "INSUFFICIENT_REVIEWERS"

/-- Lookup in an insertion-ordered association list (a Python dict): the
value of the first binding of the key, if any. -/
def dictGet? {α β : Type} [DecidableEq α] : List (α × β) → α → Option β
  | [], _ => none
  | kv :: rest, k => if kv.1 = k then some kv.2 else dictGet? rest k

/-- `dictGet?` with a default value. -/
def dictGetD {α β : Type} [DecidableEq α] (d : List (α × β)) (k : α) (v : β) : β :=
  (dictGet? d k).getD v

/-- Keys of an association list, in insertion order (Python dict iteration). -/
def dictKeys {α β : Type} (d : List (α × β)) : List α :=
  d.map (fun kv => kv.1)

/-- Python dict assignment `d[k] = f(d.get(k))`: update the binding of `k` in
place if present, otherwise append `k` at the end. -/
def dictUpdate {α β : Type} [DecidableEq α] (d : List (α × β)) (k : α) (f : Option β → β) :
    List (α × β) :=
  match d with
  | [] => [(k, f none)]
  | kv :: rest => if kv.1 = k then (k, f (some kv.2)) :: rest else kv :: dictUpdate rest k f

/-- Python `set.add`: add an element to a duplicate-free list if absent. -/
def setAdd {α : Type} [DecidableEq α] (x : α) (s : List α) : List α :=
  if x ∈ s then s else s ++ [x]

/-- Stable insertion of `x` into `l`: `x` is placed before the first element
whose key is strictly greater, hence after all elements with an equal key. -/
def sortInsert {α κ : Type} [LinearOrder κ] (key : α → κ) (x : α) : List α → List α
  | [] => [x]
  | y :: ys => if key x < key y then x :: y :: ys else y :: sortInsert key x ys

/-- Stable sort by a key function, modelling Python `sorted(l, key=key)`:
elements with equal keys keep their original relative order. -/
def stableSortBy {α κ : Type} [LinearOrder κ] (key : α → κ) (l : List α) : List α :=
  l.foldl (fun acc x => sortInsert key x acc) []

/-- Python `itertools.combinations(l, k)`: all size-`k` combinations of `l`,
in lexicographic order of the positions of the chosen elements. -/
def combinations {α : Type} (k : Nat) (l : List α) : List (List α) :=
  match l, k with
  | _, 0 => [[]]
  | [], _ + 1 => []
  | x :: xs, j + 1 => (combinations j xs).map (fun c => x :: c) ++ combinations (j + 1) xs

/-- Source `_owner_combinations(owners, k)` of owners_client.py:
`reversed(list(itertools.combinations(reversed(owners), k)))`. -/
def ownerCombinations {α : Type} (owners : List α) (k : Nat) : List (List α) :=
  (combinations k owners.reverse).reverse

/-- The two dictionaries built by the first loop of
`OwnersClient.SuggestOwners`: `paths_by_owner` and `score_by_owner`. -/
structure ScoreState where
  pathsByOwner : List (String × List String)
  scoreByOwner : List (String × Nat)
deriving DecidableEq

/-- Body of the inner loop of `SuggestOwners` for one `(i, owner)` pair of
`enumerate(owners)`: `paths_by_owner.setdefault(owner, set()).add(path)` and
`score_by_owner[owner] = min(i, score_by_owner.get(owner, i))`. -/
def processOwner (path : String) (st : ScoreState) (p : Nat × String) : ScoreState :=
  { pathsByOwner := dictUpdate st.pathsByOwner p.2 (fun old => setAdd path (old.getD []))
    scoreByOwner := dictUpdate st.scoreByOwner p.2 (fun old => min p.1 (old.getD p.1)) }

/-- One iteration of the outer loop of `SuggestOwners`: enumerate the owners
of `path` as returned by `ListOwnersForFile` and process each. -/
def processPath (listOwners : String → List String) (st : ScoreState) (path : String) :
    ScoreState :=
  ((listOwners path).enum).foldl (processOwner path) st

/-- The state built by the first loop of `SuggestOwners` over all paths. -/
def buildState (listOwners : String → List String) (paths : List String) : ScoreState :=
  paths.foldl (processPath listOwners) { pathsByOwner := [], scoreByOwner := [] }

/-- `owners = sorted(score_by_owner, key=lambda o: score_by_owner[o])` of
`SuggestOwners`: the candidate owners sorted by score, ties kept in dict
insertion order (Python sorted is stable). -/
def ownersOf (st : ScoreState) : List String :=
  (stableSortBy (fun kv => kv.2) st.scoreByOwner).map (fun kv => kv.1)

/-- The set `set.union(*(paths_by_owner[o] for o in selected))` of
`SuggestOwners`, as a duplicate-free list; only its membership and length are
ever used. -/
def coveredBy (st : ScoreState) (selected : List String) : List String :=
  (selected.flatMap (fun o => dictGetD st.pathsByOwner o [])).dedup

/-- The selection phase of `SuggestOwners`, after the dictionaries have been
built: return the sorted owner list if it has fewer than 2 elements, else the
first combination, of sizes `2, ..., len(owners) - 1` in order, that covers
all paths; `none` models the implicit Python `None` when the loop falls
through. -/
def suggestOwnersAux (st : ScoreState) (numPaths : Nat) : Option (List String) :=
  let owners := ownersOf st
  if owners.length < 2 then some owners
  else (List.range' 2 (owners.length - 2)).findSome? (fun k =>
    (ownerCombinations owners k).find? (fun sel =>
      (coveredBy st sel).length == numPaths))

/-- Source `OwnersClient.SuggestOwners(project, branch, paths)`, with the
`ListOwnersForFile` backing abstracted as a function (project and branch are
only forwarded to it). -/
def suggestOwners (listOwners : String → List String) (paths : List String) :
    Option (List String) :=
  suggestOwnersAux (buildState listOwners paths) paths.length

/-- The value `paths_by_owner[o]` after the first loop of `SuggestOwners`
(empty for an owner never recorded). -/
def pathsFor (listOwners : String → List String) (paths : List String) (o : String) :
    List String :=
  dictGetD (buildState listOwners paths).pathsByOwner o []

/-- The sorted candidate owner list of `SuggestOwners`. -/
def sortedOwners (listOwners : String → List String) (paths : List String) : List String :=
  ownersOf (buildState listOwners paths)

/-- Loop body of `OwnersClient.GetFilesApprovalStatus` for one path:
APPROVED if the owner set of the path meets the approvers, else PENDING if it
meets the reviewers, else INSUFFICIENT_REVIEWERS. Python set intersection
nonemptiness is modelled by `List.inter ≠ []`. -/
def statusOfPath (listOwners : String → List String) (approvers reviewers : List String)
    (path : String) : String :=
  if ((listOwners path).inter approvers) ≠ [] then APPROVED
  else if ((listOwners path).inter reviewers) ≠ [] then PENDING
  else INSUFFICIENT_REVIEWERS

/-- Source `OwnersClient.GetFilesApprovalStatus`: classify every path; the
result dict is an association list written in path order. -/
def getFilesApprovalStatus (listOwners : String → List String)
    (paths approvers reviewers : List String) : List (String × String) :=
  paths.foldl (fun status path =>
    dictUpdate status path (fun _ => statusOfPath listOwners approvers reviewers path)) []

/-- Maximum of a list of naturals (0 for the empty list); the score of a set
of owners in the sense of the `_owner_combinations` docstring. -/
def maxNat (l : List Nat) : Nat := l.foldr max 0

/-- Source `DepotToolsClient.ListOwnersForFile`: sort the owners of the
distance dict by `distance + random.random()`. The dict
`{owner: [(path, distance)]}` returned by `all_possible_owners` (whose code,
owners.py, is outside the sources) is abstracted to its used projection
`owner ↦ distance of the first pair`; the per-call random values in `[0, 1)`
are abstracted to an arbitrary jitter function into `ℚ`. -/
def listOwnersForFileD (distByOwner : List (String × Nat)) (jitter : String → ℚ) :
    List String :=
  stableSortBy (fun o => ((dictGetD distByOwner o 0 : Nat) : ℚ) + jitter o)
    (dictKeys distByOwner)

end DepotTools

namespace SplitCl

/-- Modelled from the spec: split_cl.py is not among the sources (only its
test is), so `CLInfo` follows §3 of the specification: reviewers (ordered
list of owner emails), human-readable description, files (list of
(action, path) pairs, action one of A, M, D). -/
structure CLInfo where
  reviewers : List String
  description : String
  files : List (String × String)
deriving DecidableEq

/-- Concatenation of groups with a single separator element between
consecutive groups (the shape of both the reviewer line, comma between
emails, and of the plan text, blank line between blocks). -/
def joinSep {α : Type} (sep : α) : List (List α) → List α
  | [] => []
  | [x] => x
  | x :: y :: t => x ++ sep :: joinSep sep (y :: t)

/-- Split a list at every occurrence of the separator element; always returns
at least one (possibly empty) group, and one group per separator plus one. -/
def splitSep {α : Type} [DecidableEq α] (sep : α) : List α → List (List α)
  | [] => [[]]
  | x :: xs =>
    match splitSep sep xs with
    | [] => [[]]
    | g :: gs => if x = sep then [] :: g :: gs else (x :: g) :: gs

/-- Drop an expected character sequence from the front, or fail. -/
def dropPrefixChars : List Char → List Char → Option (List Char)
  | [], s => some s
  | _ :: _, [] => none
  | p :: ps, c :: cs => if p = c then dropPrefixChars ps cs else none

/-- Split a character list at the first occurrence of `c`, or fail if `c`
does not occur. -/
def splitFirst (c : Char) : List Char → Option (List Char × List Char)
  | [] => none
  | x :: xs =>
    if x = c then some ([], xs)
    else (splitFirst c xs).map (fun pr => (x :: pr.1, pr.2))

/-- Modelled from the spec: whether a line is a non-semantic comment,
"lines beginning with # are ... ignored on parse" (§4.6). -/
def startsWithHash (s : String) : Bool :=
  match s.data with
  | '#' :: _ => true
  | _ => false

/-- Modelled from the spec: the reviewer line of a CLInfo block, the emails
joined by commas after a fixed prefix. -/
def formatReviewers (reviewers : List String) : String :=
  String.mk ("Reviewers: ".data ++ joinSep ',' (reviewers.map (fun r => r.data)))

/-- Modelled from the spec: one indented file line, `<action> <path>` (§4.6). -/
def formatFileLine (af : String × String) : String :=
  String.mk (' ' :: ' ' :: (af.1.data ++ ' ' :: af.2.data))

/-- Modelled from the spec: a CLInfo block is a reviewer line, a description
line, and one indented line per file (§4.6). -/
def formatCLInfo (cl : CLInfo) : List String :=
  formatReviewers cl.reviewers :: cl.description :: cl.files.map formatFileLine

/-- Modelled from the spec: a split plan is formatted as its CLInfo blocks
separated by a blank line (§4.6); the unit of text is the line. -/
def formatSplitting (plan : List CLInfo) : List String :=
  joinSep "" (plan.map formatCLInfo)

/-- Parse a reviewer line. -/
def parseReviewers (line : String) : Except String (List String) :=
  match dropPrefixChars "Reviewers: ".data line.data with
  | none => .error "expected a reviewer line"
  | some rest => .ok ((splitSep ',' rest).map (fun cs => String.mk cs))

/-- Parse one indented `<action> <path>` file line; the action must be one of
the diff actions A, M, D (§6). -/
def parseFileLine (line : String) : Except String (String × String) :=
  match line.data with
  | ' ' :: ' ' :: rest =>
    match splitFirst ' ' rest with
    | none => .error "malformed file line"
    | some pr =>
      if String.mk pr.1 ∈ (["A", "M", "D"] : List String) then
        .ok (String.mk pr.1, String.mk pr.2)
      else .error "unknown action"
  | _ => .error "expected an indented file line"

/-- Apply a fallible parser to every element, stopping at the first error. -/
def mapExcept {α β : Type} (f : α → Except String β) : List α → Except String (List β)
  | [] => .ok []
  | x :: xs => do
    let y ← f x
    let ys ← mapExcept f xs
    .ok (y :: ys)

/-- Parse one block: reviewer line, description line, file lines. -/
def parseBlock : List String → Except String CLInfo
  | rev :: desc :: fileLines => do
    let rs ← parseReviewers rev
    let fs ← mapExcept parseFileLine fileLines
    .ok { reviewers := rs, description := desc, files := fs }
  | _ => .error "incomplete CL block"

/-- The duplicate-file cross check of §7: no path may appear in more than one
CLInfo block (`ClSplitParseError` otherwise). -/
def noCrossDuplicate (plan : List CLInfo) : Bool :=
  decide ((plan.map (fun cl => (cl.files.map (fun af => af.2)).dedup)).flatten.Nodup)

/-- Modelled from the spec: `ParseSplittings(lines)`, the inverse of
formatting (§4.6): drop comment lines, split into blocks at blank lines,
parse each block, and reject a file appearing in more than one block (§7,
`ClSplitParseError` is modelled as the error message). -/
def parseSplittings (lines : List String) : Except String (List CLInfo) :=
  let ls := lines.filter (fun l => !startsWithHash l)
  let groups := (splitSep "" ls).filter (fun g => !g.isEmpty)
  match mapExcept parseBlock groups with
  | .error e => .error e
  | .ok cls =>
    if noCrossDuplicate cls then .ok cls else .error "file appears in multiple CLs"

/-- Well-formedness of a CLInfo per the data model of §3 and §6: at least one
reviewer, reviewer emails contain no comma, the description is a nonempty
line that is not a comment, and every file action is a diff action. -/
def CLInfoWF (cl : CLInfo) : Prop :=
  cl.reviewers ≠ [] ∧
  (∀ r ∈ cl.reviewers, ',' ∉ r.data) ∧
  cl.description ≠ "" ∧
  startsWithHash cl.description = false ∧
  ∀ af ∈ cl.files, af.1 ∈ (["A", "M", "D"] : List String)

/-- Well-formedness of a split plan: every block is well formed. -/
def planWF (plan : List CLInfo) : Prop := ∀ cl ∈ plan, CLInfoWF cl

instance (cl : CLInfo) : Decidable (CLInfoWF cl) := by
  unfold CLInfoWF
  infer_instance

instance (plan : List CLInfo) : Decidable (planWF plan) := by
  unfold planWF
  infer_instance

end SplitCl

namespace DepotTools

/-! ### Association-list (Python dict) lemmas -/

theorem dictGet?_dictUpdate_self {α β : Type} [DecidableEq α] (d : List (α × β)) (k : α)
    (f : Option β → β) : dictGet? (dictUpdate d k f) k = some (f (dictGet? d k)) := by
  induction d with
  | nil => simp [dictUpdate, dictGet?]
  | cons kv rest ih =>
    by_cases h : kv.1 = k
    · simp [dictUpdate, dictGet?, h]
    · simp [dictUpdate, dictGet?, h, ih]

theorem dictGet?_dictUpdate_ne {α β : Type} [DecidableEq α] (d : List (α × β)) {k q : α}
    (f : Option β → β) (h : q ≠ k) : dictGet? (dictUpdate d k f) q = dictGet? d q := by
  induction d with
  | nil => simp [dictUpdate, dictGet?, Ne.symm h]
  | cons kv rest ih =>
    by_cases hk : kv.1 = k
    · subst hk
      simp [dictUpdate, dictGet?, Ne.symm h]
    · by_cases hq : kv.1 = q <;> simp [dictUpdate, dictGet?, hk, hq, ih, h]

theorem mem_dictKeys_dictUpdate {α β : Type} [DecidableEq α] (d : List (α × β)) (k a : α)
    (f : Option β → β) : a ∈ dictKeys (dictUpdate d k f) ↔ a = k ∨ a ∈ dictKeys d := by
  induction d with
  | nil => simp [dictUpdate, dictKeys]
  | cons kv rest ih =>
    by_cases h : kv.1 = k
    · subst h
      simp [dictUpdate, dictKeys]
    · simp [dictUpdate, dictKeys, h] at ih ⊢
      tauto

theorem nodup_dictKeys_dictUpdate {α β : Type} [DecidableEq α] (d : List (α × β)) (k : α)
    (f : Option β → β) (h : (dictKeys d).Nodup) : (dictKeys (dictUpdate d k f)).Nodup := by
  induction d with
  | nil => simp [dictUpdate, dictKeys]
  | cons kv rest ih =>
    simp only [dictKeys, List.map_cons, List.nodup_cons] at h
    by_cases hk : kv.1 = k
    · subst hk
      simpa [dictUpdate, dictKeys, List.nodup_cons] using h
    · have := ih h.2
      simp only [dictUpdate, hk, if_false, dictKeys, List.map_cons, List.nodup_cons]
      refine ⟨fun hmem => ?_, this⟩
      rcases (mem_dictKeys_dictUpdate rest k kv.1 f).1 hmem with h1 | h2
      · exact hk h1
      · exact h.1 h2

/-! ### Python set lemmas -/

theorem mem_setAdd {α : Type} [DecidableEq α] (x y : α) (s : List α) :
    y ∈ setAdd x s ↔ y = x ∨ y ∈ s := by
  by_cases h : x ∈ s
  · simp only [setAdd, if_pos h]
    constructor
    · exact fun hy => Or.inr hy
    · rintro (rfl | hy)
      · exact h
      · exact hy
  · simp only [setAdd, if_neg h, List.mem_append, List.mem_singleton]
    tauto

/-! ### Stable sort lemmas -/

theorem mem_sortInsert {α κ : Type} [LinearOrder κ] (key : α → κ) (x y : α) (l : List α) :
    y ∈ sortInsert key x l ↔ y = x ∨ y ∈ l := by
  induction l with
  | nil => simp [sortInsert]
  | cons z zs ih =>
    by_cases h : key x < key z
    · simp [sortInsert, h]
    · simp [sortInsert, h, ih]
      tauto

theorem sortInsert_perm {α κ : Type} [LinearOrder κ] (key : α → κ) (x : α) (l : List α) :
    (sortInsert key x l).Perm (x :: l) := by
  induction l with
  | nil => simp [sortInsert]
  | cons z zs ih =>
    by_cases h : key x < key z
    · simp [sortInsert, h]
    · simp only [sortInsert, if_neg h]
      exact (ih.cons z).trans (List.Perm.swap x z zs)

theorem foldl_sortInsert_perm {α κ : Type} [LinearOrder κ] (key : α → κ) (l acc : List α) :
    (l.foldl (fun a x => sortInsert key x a) acc).Perm (acc ++ l) := by
  induction l generalizing acc with
  | nil => simp
  | cons x xs ih =>
    simp only [List.foldl_cons]
    refine (ih (sortInsert key x acc)).trans ?_
    have h1 : (sortInsert key x acc ++ xs).Perm ((x :: acc) ++ xs) :=
      (sortInsert_perm key x acc).append_right xs
    refine h1.trans ?_
    simpa using List.perm_middle.symm

theorem stableSortBy_perm {α κ : Type} [LinearOrder κ] (key : α → κ) (l : List α) :
    (stableSortBy key l).Perm l := by
  simpa [stableSortBy] using foldl_sortInsert_perm key l []

theorem pairwise_sortInsert {α κ : Type} [LinearOrder κ] (key : α → κ) (x : α) (l : List α)
    (h : l.Pairwise (fun a b => key a ≤ key b)) :
    (sortInsert key x l).Pairwise (fun a b => key a ≤ key b) := by
  induction l with
  | nil => simp [sortInsert]
  | cons z zs ih =>
    rcases List.pairwise_cons.1 h with ⟨hz, hzs⟩
    by_cases hx : key x < key z
    · simp only [sortInsert, if_pos hx]
      refine List.pairwise_cons.2 ⟨?_, h⟩
      intro b hb
      rcases List.mem_cons.1 hb with rfl | hb
      · exact le_of_lt hx
      · exact le_trans (le_of_lt hx) (hz b hb)
    · simp only [sortInsert, if_neg hx]
      refine List.pairwise_cons.2 ⟨?_, ih hzs⟩
      intro b hb
      rcases (mem_sortInsert key x b zs).1 hb with rfl | hb
      · exact not_lt.1 hx
      · exact hz b hb

theorem pairwise_stableSortBy {α κ : Type} [LinearOrder κ] (key : α → κ) (l : List α) :
    (stableSortBy key l).Pairwise (fun a b => key a ≤ key b) := by
  have main : ∀ (l acc : List α), acc.Pairwise (fun a b => key a ≤ key b) →
      (l.foldl (fun a x => sortInsert key x a) acc).Pairwise (fun a b => key a ≤ key b) := by
    intro l
    induction l with
    | nil => exact fun acc h => h
    | cons x xs ih =>
      intro acc h
      exact ih (sortInsert key x acc) (pairwise_sortInsert key x acc h)
  exact main l [] (List.Pairwise.nil)

/-! ### Invariants of the dictionary-building loop of SuggestOwners -/

theorem exists_pair_mem_cons {o : String} (p : Nat × String) (l : List (Nat × String)) :
    (∃ i, (i, o) ∈ p :: l) ↔ o = p.2 ∨ ∃ i, (i, o) ∈ l := by
  constructor
  · rintro ⟨i, hi⟩
    rcases List.mem_cons.1 hi with h | h
    · left
      rw [← h]
    · exact Or.inr ⟨i, h⟩
  · rintro (h | ⟨i, hi⟩)
    · refine ⟨p.1, ?_⟩
      rw [List.mem_cons]
      left
      rw [h]
    · exact ⟨i, List.mem_cons_of_mem _ hi⟩

theorem exists_mem_enum {α : Type} (o : α) (l : List α) :
    (∃ i, (i, o) ∈ l.enum) ↔ o ∈ l := by
  constructor
  · rintro ⟨i, hi⟩
    obtain ⟨hlt, ho⟩ := List.mem_enum hi
    rw [ho]
    exact List.getElem_mem hlt
  · intro h
    have h2 : o ∈ l.enum.map Prod.snd := by
      rw [List.enum_map_snd]
      exact h
    rcases List.mem_map.1 h2 with ⟨pr, hpr, hsnd⟩
    obtain ⟨a, b⟩ := pr
    cases hsnd
    exact ⟨a, hpr⟩

theorem pathsFor_processOwner (path : String) (st : ScoreState) (p : Nat × String)
    (q o : String) :
    q ∈ dictGetD (processOwner path st p).pathsByOwner o [] ↔
      q ∈ dictGetD st.pathsByOwner o [] ∨ (q = path ∧ o = p.2) := by
  by_cases h : o = p.2
  · subst h
    simp only [processOwner, dictGetD, dictGet?_dictUpdate_self, Option.getD_some]
    rw [mem_setAdd]
    tauto
  · simp only [processOwner, dictGetD, dictGet?_dictUpdate_ne _ _ h]
    tauto

theorem pathsFor_foldl_processOwner (path : String) (l : List (Nat × String))
    (st : ScoreState) (q o : String) :
    q ∈ dictGetD (l.foldl (processOwner path) st).pathsByOwner o [] ↔
      q ∈ dictGetD st.pathsByOwner o [] ∨ (q = path ∧ ∃ i, (i, o) ∈ l) := by
  induction l generalizing st with
  | nil => simp
  | cons p ps ih =>
    simp only [List.foldl_cons]
    rw [ih (processOwner path st p), pathsFor_processOwner, exists_pair_mem_cons]
    tauto

theorem pathsFor_foldl_processPath (f : String → List String) (paths : List String)
    (st : ScoreState) (q o : String) :
    q ∈ dictGetD (paths.foldl (processPath f) st).pathsByOwner o [] ↔
      q ∈ dictGetD st.pathsByOwner o [] ∨ (q ∈ paths ∧ o ∈ f q) := by
  induction paths generalizing st with
  | nil => simp
  | cons p ps ih =>
    simp only [List.foldl_cons]
    rw [ih (processPath f st p)]
    rw [show processPath f st p = ((f p).enum).foldl (processOwner p) st from rfl]
    rw [pathsFor_foldl_processOwner, exists_mem_enum]
    constructor
    · rintro ((hst | ⟨rfl, hf⟩) | ⟨hps, hf⟩)
      · exact Or.inl hst
      · exact Or.inr ⟨List.mem_cons_self _ _, hf⟩
      · exact Or.inr ⟨List.mem_cons_of_mem _ hps, hf⟩
    · rintro (hst | ⟨hq, hf⟩)
      · exact Or.inl (Or.inl hst)
      · rcases List.mem_cons.1 hq with rfl | hq
        · exact Or.inl (Or.inr ⟨rfl, hf⟩)
        · exact Or.inr ⟨hq, hf⟩

/-- Characterization of `paths_by_owner` after the first loop of
`SuggestOwners`: a path `q` is recorded for owner `o` exactly when `q` is one
of the requested paths and `o` is one of its listed owners. -/
theorem mem_pathsFor_iff (f : String → List String) (paths : List String) (q o : String) :
    q ∈ pathsFor f paths o ↔ q ∈ paths ∧ o ∈ f q := by
  have h := pathsFor_foldl_processPath f paths { pathsByOwner := [], scoreByOwner := [] } q o
  simpa [pathsFor, buildState, dictGetD, dictGet?] using h

theorem scoreKeys_foldl_processOwner (path : String) (l : List (Nat × String))
    (st : ScoreState) (o : String) :
    o ∈ dictKeys (l.foldl (processOwner path) st).scoreByOwner ↔
      (∃ i, (i, o) ∈ l) ∨ o ∈ dictKeys st.scoreByOwner := by
  induction l generalizing st with
  | nil => simp
  | cons p ps ih =>
    simp only [List.foldl_cons]
    rw [ih (processOwner path st p), exists_pair_mem_cons]
    rw [show (processOwner path st p).scoreByOwner =
      dictUpdate st.scoreByOwner p.2 (fun old => min p.1 (old.getD p.1)) from rfl]
    rw [mem_dictKeys_dictUpdate]
    tauto

theorem scoreKeys_foldl_processPath (f : String → List String) (paths : List String)
    (st : ScoreState) (o : String) :
    o ∈ dictKeys (paths.foldl (processPath f) st).scoreByOwner ↔
      (∃ p ∈ paths, o ∈ f p) ∨ o ∈ dictKeys st.scoreByOwner := by
  induction paths generalizing st with
  | nil => simp
  | cons p ps ih =>
    simp only [List.foldl_cons]
    rw [ih (processPath f st p)]
    rw [show processPath f st p = ((f p).enum).foldl (processOwner p) st from rfl]
    rw [scoreKeys_foldl_processOwner, exists_mem_enum]
    simp only [List.mem_cons]
    constructor
    · rintro (⟨q, hq, hf⟩ | hf | hst)
      · exact Or.inl ⟨q, Or.inr hq, hf⟩
      · exact Or.inl ⟨p, Or.inl rfl, hf⟩
      · exact Or.inr hst
    · rintro (⟨q, rfl | hq, hf⟩ | hst)
      · exact Or.inr (Or.inl hf)
      · exact Or.inl ⟨q, hq, hf⟩
      · exact Or.inr (Or.inr hst)

/-- Characterization of the keys of `score_by_owner` after the first loop of
`SuggestOwners`: exactly the owners listed for at least one requested path. -/
theorem mem_scoreKeys_iff (f : String → List String) (paths : List String) (o : String) :
    o ∈ dictKeys (buildState f paths).scoreByOwner ↔ ∃ p ∈ paths, o ∈ f p := by
  have h := scoreKeys_foldl_processPath f paths { pathsByOwner := [], scoreByOwner := [] } o
  simpa [buildState, dictKeys] using h

theorem nodup_scoreKeys_foldl_processOwner (path : String) (l : List (Nat × String))
    (st : ScoreState) (h : (dictKeys st.scoreByOwner).Nodup) :
    (dictKeys (l.foldl (processOwner path) st).scoreByOwner).Nodup := by
  induction l generalizing st with
  | nil => exact h
  | cons p ps ih =>
    exact ih (processOwner path st p) (nodup_dictKeys_dictUpdate _ _ _ h)

theorem nodup_scoreKeys (f : String → List String) (paths : List String) :
    (dictKeys (buildState f paths).scoreByOwner).Nodup := by
  have main : ∀ (ps : List String) (st : ScoreState), (dictKeys st.scoreByOwner).Nodup →
      (dictKeys (ps.foldl (processPath f) st).scoreByOwner).Nodup := by
    intro ps
    induction ps with
    | nil => exact fun st h => h
    | cons p ps ih =>
      intro st h
      exact ih (processPath f st p) (nodup_scoreKeys_foldl_processOwner p _ st h)
  exact main paths { pathsByOwner := [], scoreByOwner := [] } (by simp [dictKeys])

theorem sortedOwners_perm_keys (f : String → List String) (paths : List String) :
    (sortedOwners f paths).Perm (dictKeys (buildState f paths).scoreByOwner) := by
  unfold sortedOwners ownersOf dictKeys
  exact (stableSortBy_perm (fun kv => kv.2) (buildState f paths).scoreByOwner).map
    (fun kv => kv.1)

theorem mem_sortedOwners_iff (f : String → List String) (paths : List String) (o : String) :
    o ∈ sortedOwners f paths ↔ ∃ p ∈ paths, o ∈ f p := by
  rw [(sortedOwners_perm_keys f paths).mem_iff, mem_scoreKeys_iff]

theorem nodup_sortedOwners (f : String → List String) (paths : List String) :
    (sortedOwners f paths).Nodup :=
  (sortedOwners_perm_keys f paths).nodup_iff.2 (nodup_scoreKeys f paths)

/-! ### The combination-search phase of SuggestOwners -/

theorem suggestOwnersAux_eq (st : ScoreState) (n : Nat) :
    suggestOwnersAux st n =
      if (ownersOf st).length < 2 then some (ownersOf st)
      else (List.range' 2 ((ownersOf st).length - 2)).findSome? (fun k =>
        (ownerCombinations (ownersOf st) k).find? (fun sel =>
          (coveredBy st sel).length == n)) := rfl

theorem findSome?_eq_none_of {α β : Type} (f : α → Option β) (l : List α)
    (h : ∀ x ∈ l, f x = none) : l.findSome? f = none := by
  induction l with
  | nil => rfl
  | cons x xs ih =>
    rw [List.findSome?_cons, h x (List.mem_cons_self x xs)]
    exact ih (fun y hy => h y (List.mem_cons_of_mem x hy))

theorem mem_coveredBy_iff (f : String → List String) (paths : List String)
    (sel : List String) (q : String) :
    q ∈ coveredBy (buildState f paths) sel ↔ ∃ o ∈ sel, q ∈ pathsFor f paths o := by
  unfold coveredBy
  rw [List.mem_dedup, List.mem_flatMap]
  exact Iff.rfl

theorem covered_all_of_length_eq (f : String → List String) (paths sel : List String)
    (h : (coveredBy (buildState f paths) sel).length = paths.length) :
    ∀ p ∈ paths, ∃ o ∈ sel, p ∈ pathsFor f paths o := by
  intro p hp
  have hsub : coveredBy (buildState f paths) sel ⊆ paths := by
    intro q hq
    rcases (mem_coveredBy_iff f paths sel q).1 hq with ⟨o, _, hqo⟩
    exact ((mem_pathsFor_iff f paths q o).1 hqo).1
  have hsp := List.subperm_of_subset (List.nodup_dedup _) hsub
  have hperm := hsp.perm_of_length_le (le_of_eq h.symm)
  exact (mem_coveredBy_iff f paths sel p).1 (hperm.mem_iff.2 hp)

/-- Claim C1 (amended): whenever every requested path has at least one listed
owner and `SuggestOwners` returns a collection of owners (rather than the
fall-through `None`), every requested path is in `paths_by_owner[o]` for at
least one returned owner `o`. -/
theorem suggestOwners_cover (f : String → List String) (paths sel : List String)
    (howned : ∀ p ∈ paths, f p ≠ [])
    (hret : suggestOwners f paths = some sel) :
    ∀ p ∈ paths, ∃ o ∈ sel, p ∈ pathsFor f paths o := by
  unfold suggestOwners at hret
  rw [suggestOwnersAux_eq] at hret
  by_cases hlen : (ownersOf (buildState f paths)).length < 2
  · rw [if_pos hlen] at hret
    have hsel : sel = ownersOf (buildState f paths) := (Option.some_inj.1 hret).symm
    subst hsel
    intro p hp
    rcases List.exists_mem_of_ne_nil (f p) (howned p hp) with ⟨o, ho⟩
    refine ⟨o, ?_, (mem_pathsFor_iff f paths p o).2 ⟨hp, ho⟩⟩
    exact (mem_sortedOwners_iff f paths o).2 ⟨p, hp, ho⟩
  · rw [if_neg hlen] at hret
    rcases List.exists_of_findSome?_eq_some hret with ⟨k, _, hfind⟩
    have hbeq := List.find?_some hfind
    have hlen2 : (coveredBy (buildState f paths) sel).length = paths.length := by
      simpa using hbeq
    exact covered_all_of_length_eq f paths sel hlen2

/-- Claim C1, counterexample to the claim as stated: two paths owned by two
distinct single owners; every path has an owner, yet `SuggestOwners` returns
`None` (the search range `2 ≤ k < 2` is empty), so no covering collection is
returned. -/
theorem suggestOwners_cover_counterexample :
    (∀ p ∈ (["a", "b"] : List String),
      (fun q => if q = "a" then ["x"] else if q = "b" then ["y"] else []) p ≠ []) ∧
    suggestOwners (fun q => if q = "a" then ["x"] else if q = "b" then ["y"] else [])
      ["a", "b"] = none ∧
    ∀ sel : List String,
      suggestOwners (fun q => if q = "a" then ["x"] else if q = "b" then ["y"] else [])
        ["a", "b"] ≠ some sel := by
  have hnone :
      suggestOwners (fun q => if q = "a" then ["x"] else if q = "b" then ["y"] else [])
        ["a", "b"] = none := by decide
  refine ⟨by decide, hnone, fun sel hsel => ?_⟩
  rw [hnone] at hsel
  exact Option.noConfusion hsel

/-- Claim C1, witness: a concrete run in which `SuggestOwners` does return a
collection and the cover conclusion holds. -/
theorem suggestOwners_cover_witness :
    ∃ o ∈ (["alice"] : List String),
      "a" ∈ pathsFor (fun q => if q = "a" then ["alice"] else []) ["a"] o :=
  suggestOwners_cover (fun q => if q = "a" then ["alice"] else []) ["a"] ["alice"]
    (by decide) (by decide) "a" (by decide)

/-- Claim C5: when the distinct candidate owners collected from all rankings
number fewer than two, `SuggestOwners` returns exactly that owner collection
(the score-sorted owner list, a permutation of the distinct owners). -/
theorem suggestOwners_trivial (f : String → List String) (paths : List String)
    (h : ((paths.flatMap f).dedup).length < 2) :
    suggestOwners f paths = some (sortedOwners f paths) ∧
      (sortedOwners f paths).Perm (paths.flatMap f).dedup := by
  have hperm : (sortedOwners f paths).Perm (paths.flatMap f).dedup := by
    rw [List.perm_ext_iff_of_nodup (nodup_sortedOwners f paths) (List.nodup_dedup _)]
    intro o
    rw [mem_sortedOwners_iff, List.mem_dedup, List.mem_flatMap]
  refine ⟨?_, hperm⟩
  have hlen : (ownersOf (buildState f paths)).length < 2 := by
    have hl := hperm.length_eq
    unfold sortedOwners at hl
    omega
  unfold suggestOwners
  rw [suggestOwnersAux_eq, if_pos hlen]
  rfl

/-- Claim C5, witness: one path with a single owner. -/
theorem suggestOwners_trivial_witness :
    suggestOwners (fun _ => ["alice"]) ["a"] =
        some (sortedOwners (fun _ => ["alice"]) ["a"]) ∧
      (sortedOwners (fun _ => ["alice"]) ["a"]).Perm
        ((["a"].flatMap (fun _ => ["alice"])).dedup) :=
  suggestOwners_trivial (fun _ => ["alice"]) ["a"] (by decide)

/-- Claim C6, counterexample: on the backing of Scenario B the code does not
return `[alice]`. -/
theorem scenarioB_counterexample :
    suggestOwners
      (fun p => if p = "a" then ["alice"] else if p = "ab" then ["alice", "bob"] else [])
      ["a", "ab"] ≠ some ["alice"] := by decide

/-- Claim C6 (amended): on the backing of Scenario B, with exactly two
candidate owners the combination search over sizes `2 ≤ k < 2` is empty and
`SuggestOwners` returns `None`. -/
theorem scenarioB_returns_none :
    suggestOwners
      (fun p => if p = "a" then ["alice"] else if p = "ab" then ["alice", "bob"] else [])
      ["a", "ab"] = none := by decide

theorem processPath_congr (f g : String → List String) (st : ScoreState) (p : String)
    (h : f p = g p) : processPath f st p = processPath g st p := by
  unfold processPath
  rw [h]

theorem foldl_processPath_congr (f g : String → List String) :
    ∀ paths : List String, (∀ p ∈ paths, f p = g p) →
      ∀ st : ScoreState,
        paths.foldl (processPath f) st = paths.foldl (processPath g) st := by
  intro paths
  induction paths with
  | nil => exact fun _ _ => rfl
  | cons p ps ih =>
    intro h st
    simp only [List.foldl_cons]
    rw [processPath_congr f g st p (h p (List.mem_cons_self p ps))]
    exact ih (fun q hq => h q (List.mem_cons_of_mem p hq)) (processPath g st p)

/-- Claim C9: `SuggestOwners` is a pure function of the rankings of the
requested paths; two runs over backings that agree on the requested paths
(in particular two runs over the same fixed deterministic backing) return
equal results. -/
theorem suggestOwners_deterministic (f g : String → List String) (paths : List String)
    (h : ∀ p ∈ paths, f p = g p) : suggestOwners f paths = suggestOwners g paths := by
  have hb : buildState f paths = buildState g paths := by
    unfold buildState
    exact foldl_processPath_congr f g paths h _
  unfold suggestOwners
  rw [hb]

/-- Claim C9, witness: two backings that agree on the requested path. -/
theorem suggestOwners_deterministic_witness :
    suggestOwners (fun _ => ["a"]) ["p"] =
      suggestOwners (fun q => if q = "zz" then ["b"] else ["a"]) ["p"] :=
  suggestOwners_deterministic _ _ ["p"] (by decide)

/-- Claim C10: with at least two candidate owners and no covering
combination of any size `2 ≤ k < len(owners)`, the search loop of
`SuggestOwners` is exhausted and the function returns `None`. -/
theorem suggestOwners_exhausted_none (f : String → List String) (paths : List String)
    (h2 : 2 ≤ (sortedOwners f paths).length)
    (hno : ∀ k, k < (sortedOwners f paths).length → 2 ≤ k →
      ∀ sel ∈ ownerCombinations (sortedOwners f paths) k,
        (coveredBy (buildState f paths) sel).length ≠ paths.length) :
    suggestOwners f paths = none := by
  have h2b : 2 ≤ (ownersOf (buildState f paths)).length := h2
  unfold suggestOwners
  rw [suggestOwnersAux_eq, if_neg (by omega)]
  apply findSome?_eq_none_of
  intro k hk
  rw [List.mem_range'_1] at hk
  have hklt : k < (ownersOf (buildState f paths)).length := by omega
  rw [List.find?_eq_none]
  intro sel hsel
  have hne := hno k hklt hk.1 sel hsel
  simpa using hne

/-- Claim C10, witness: two owners owning disjoint nonempty path sets; the
search range is empty and the result is `None`. -/
theorem suggestOwners_exhausted_none_witness :
    suggestOwners (fun q => if q = "c" then ["x"] else if q = "d" then ["y"] else [])
      ["c", "d"] = none := by
  apply suggestOwners_exhausted_none
  · decide
  · decide

/-! ### GetFilesApprovalStatus -/

theorem inter_ne_nil_iff (l₁ l₂ : List String) :
    l₁.inter l₂ ≠ [] ↔ ∃ o ∈ l₁, o ∈ l₂ := by
  rw [Ne, List.eq_nil_iff_forall_not_mem]
  push_neg
  constructor
  · rintro ⟨a, ha⟩
    have h := List.mem_inter_iff.1 ha
    exact ⟨a, h.1, h.2⟩
  · rintro ⟨a, h1, h2⟩
    exact ⟨a, List.mem_inter_iff.2 ⟨h1, h2⟩⟩

theorem foldl_dictUpdate_const {α β : Type} [DecidableEq α] (g : α → β) (paths : List α)
    (acc : List (α × β)) (p : α) :
    dictGet? (paths.foldl (fun d k => dictUpdate d k (fun _ => g k)) acc) p =
      if p ∈ paths then some (g p) else dictGet? acc p := by
  induction paths generalizing acc with
  | nil => simp
  | cons r rs ih =>
    simp only [List.foldl_cons]
    rw [ih]
    by_cases hr : p ∈ rs
    · rw [if_pos hr, if_pos (List.mem_cons_of_mem r hr)]
    · rw [if_neg hr]
      by_cases hpr : p = r
      · subst hpr
        rw [dictGet?_dictUpdate_self, if_pos (List.mem_cons_self p rs)]
      · rw [dictGet?_dictUpdate_ne _ _ hpr, if_neg (by simp [hpr, hr])]

theorem statusOfPath_eq_spec (f : String → List String) (approvers reviewers : List String)
    (path : String) :
    statusOfPath f approvers reviewers path =
      if ∃ o ∈ f path, o ∈ approvers then APPROVED
      else if ∃ o ∈ f path, o ∈ reviewers then PENDING
      else INSUFFICIENT_REVIEWERS := by
  unfold statusOfPath
  rw [if_congr (inter_ne_nil_iff _ _) rfl (if_congr (inter_ne_nil_iff _ _) rfl rfl)]

/-- Claim C2: for every list of paths, approver collection and reviewer
collection, `GetFilesApprovalStatus` maps each requested path to APPROVED if
its owner set meets the approver set, else PENDING if it meets the reviewer
set, else INSUFFICIENT_REVIEWERS. -/
theorem getFilesApprovalStatus_spec (f : String → List String)
    (paths approvers reviewers : List String) (p : String) (hp : p ∈ paths) :
    dictGet? (getFilesApprovalStatus f paths approvers reviewers) p =
      some (if ∃ o ∈ f p, o ∈ approvers then APPROVED
        else if ∃ o ∈ f p, o ∈ reviewers then PENDING
        else INSUFFICIENT_REVIEWERS) := by
  unfold getFilesApprovalStatus
  rw [foldl_dictUpdate_const (statusOfPath f approvers reviewers) paths [] p, if_pos hp,
    statusOfPath_eq_spec]

/-- Claim C2, witness: a path owned by an approver is APPROVED. -/
theorem getFilesApprovalStatus_spec_witness :
    dictGet? (getFilesApprovalStatus (fun _ => ["o1"]) ["p"] ["o1"] []) "p" =
      some APPROVED := by
  have h := getFilesApprovalStatus_spec (fun _ => ["o1"]) ["p"] ["o1"] [] "p" (by decide)
  simpa using h

/-- Claim C3, evaluation at the failing input: `GetFilesApprovalStatus` gives
the EVERYONE pseudo-owner no special treatment; a path whose only listed
owner is the literal "*" is classified INSUFFICIENT_REVIEWERS although the
approver set is nonempty, where the claim requires APPROVED. -/
theorem everyone_not_special :
    getFilesApprovalStatus (fun _ => ["*"]) ["p"] ["approver@example.com"] [] =
        [("p", INSUFFICIENT_REVIEWERS)] ∧
      dictGet? (getFilesApprovalStatus (fun _ => ["*"]) ["p"] ["approver@example.com"] [])
        "p" ≠ some APPROVED := by
  constructor
  · decide
  · decide

/-! ### ListOwnersForFile of DepotToolsClient -/

/-- Claim C7: for every realization of the per-owner jitter in `[0, 1)`, the
owner list returned by `DepotToolsClient.ListOwnersForFile` is non-decreasing
in the integer distance: an owner at a strictly smaller distance always
appears earlier, and only owners tied at the same distance can exchange
places. -/
theorem listOwnersForFile_sorted_by_distance (distByOwner : List (String × Nat))
    (jitter : String → ℚ) (hj : ∀ o, 0 ≤ jitter o ∧ jitter o < 1) :
    (listOwnersForFileD distByOwner jitter).Pairwise
      (fun a b => dictGetD distByOwner a 0 ≤ dictGetD distByOwner b 0) := by
  have h := pairwise_stableSortBy
    (fun o => ((dictGetD distByOwner o 0 : Nat) : ℚ) + jitter o) (dictKeys distByOwner)
  unfold listOwnersForFileD
  refine h.imp ?_
  intro a b hab
  by_contra hgt
  push_neg at hgt
  have hcast : ((dictGetD distByOwner b 0 : Nat) : ℚ) + 1 ≤
      ((dictGetD distByOwner a 0 : Nat) : ℚ) := by exact_mod_cast hgt
  have hja := (hj a).1
  have hjb := (hj b).2
  linarith

/-- Claim C7, witness: a concrete distance table under jitter 1/2. -/
theorem listOwnersForFile_sorted_witness :
    (listOwnersForFileD [("o1", 3), ("o2", 1)] (fun _ => 1/2)).Pairwise
      (fun a b => dictGetD [("o1", 3), ("o2", 1)] a 0 ≤
        dictGetD [("o1", 3), ("o2", 1)] b 0) :=
  listOwnersForFile_sorted_by_distance [("o1", 3), ("o2", 1)] (fun _ => 1/2)
    (fun _ => ⟨by norm_num, by norm_num⟩)

/-! ### Enumeration order of the owner combinations -/

theorem pairwise_of_forall_mem {α : Type} {R : α → α → Prop} {l : List α}
    (h : ∀ a ∈ l, ∀ b ∈ l, R a b) : l.Pairwise R := by
  induction l with
  | nil => exact List.Pairwise.nil
  | cons x xs ih =>
    refine List.pairwise_cons.2 ⟨fun b hb => h x (List.mem_cons_self x xs) b
      (List.mem_cons_of_mem x hb), ih fun a ha b hb =>
        h a (List.mem_cons_of_mem x ha) b (List.mem_cons_of_mem x hb)⟩

theorem mem_combinations_sublist {α : Type} :
    ∀ (l : List α) (k : Nat) (c : List α), c ∈ combinations k l → c.Sublist l := by
  intro l
  induction l with
  | nil =>
    intro k c h
    match k with
    | 0 =>
      simp only [combinations, List.mem_singleton] at h
      simp [h]
    | _ + 1 => simp [combinations] at h
  | cons x xs ih =>
    intro k c h
    match k with
    | 0 =>
      simp only [combinations, List.mem_singleton] at h
      simp [h]
    | j + 1 =>
      rw [show combinations (j + 1) (x :: xs) =
        (combinations j xs).map (fun c => x :: c) ++ combinations (j + 1) xs from rfl] at h
      rcases List.mem_append.1 h with h1 | h2
      · rcases List.mem_map.1 h1 with ⟨c0, hc0, rfl⟩
        exact (ih j c0 hc0).cons₂ x
      · exact (ih (j + 1) c h2).cons x

theorem maxNat_le_of_forall {l : List Nat} {m : Nat} (h : ∀ a ∈ l, a ≤ m) :
    maxNat l ≤ m := by
  induction l with
  | nil => exact Nat.zero_le m
  | cons x xs ih =>
    simp only [maxNat, List.foldr_cons]
    exact max_le (h x (List.mem_cons_self x xs)) (ih fun a ha => h a (List.mem_cons_of_mem x ha))

theorem le_maxNat_cons (x : Nat) (l : List Nat) : x ≤ maxNat (x :: l) := by
  simp only [maxNat, List.foldr_cons]
  exact le_max_left _ _

theorem combinations_pairwise_max :
    ∀ (l : List Nat), l.Pairwise (fun a b => b < a) → ∀ k : Nat,
      (combinations k l).Pairwise (fun c d => maxNat d ≤ maxNat c) := by
  intro l
  induction l with
  | nil =>
    intro _ k
    match k with
    | 0 => simp [combinations]
    | _ + 1 => simp [combinations]
  | cons x xs ih =>
    intro hl k
    rcases List.pairwise_cons.1 hl with ⟨hx, hxs⟩
    match k with
    | 0 => simp [combinations]
    | j + 1 =>
      rw [show combinations (j + 1) (x :: xs) =
        (combinations j xs).map (fun c => x :: c) ++ combinations (j + 1) xs from rfl]
      have hbound : ∀ c ∈ combinations j xs, maxNat c ≤ x := fun c hc =>
        maxNat_le_of_forall fun a ha =>
          le_of_lt (hx a ((mem_combinations_sublist xs j c hc).subset ha))
      have hbound1 : ∀ c ∈ combinations (j + 1) xs, maxNat c ≤ x := fun c hc =>
        maxNat_le_of_forall fun a ha =>
          le_of_lt (hx a ((mem_combinations_sublist xs (j + 1) c hc).subset ha))
      rw [List.pairwise_append]
      refine ⟨?_, ih hxs (j + 1), ?_⟩
      · rw [List.pairwise_map]
        apply pairwise_of_forall_mem
        intro c hc d hd
        have h1 : maxNat (x :: d) = x := le_antisymm
          (by
            simp only [maxNat, List.foldr_cons]
            exact max_le (le_refl x) (hbound d hd))
          (le_maxNat_cons x d)
        have h2 : maxNat (x :: c) = x := le_antisymm
          (by
            simp only [maxNat, List.foldr_cons]
            exact max_le (le_refl x) (hbound c hc))
          (le_maxNat_cons x c)
        rw [h1, h2]
      · intro c hc d hd
        rcases List.mem_map.1 hc with ⟨c0, _, rfl⟩
        exact le_trans (hbound1 d hd) (le_maxNat_cons x c0)

theorem ownerCombinations_range_sorted (n k : Nat) :
    (ownerCombinations (List.range n) k).Pairwise (fun c d => maxNat c ≤ maxNat d) := by
  unfold ownerCombinations
  rw [List.pairwise_reverse]
  apply combinations_pairwise_max
  rw [List.pairwise_reverse]
  exact List.pairwise_lt_range n

theorem combinations_map {α β : Type} (g : α → β) :
    ∀ (l : List α) (k : Nat),
      combinations k (l.map g) = (combinations k l).map (List.map g) := by
  intro l
  induction l with
  | nil =>
    intro k
    match k with
    | 0 => simp [combinations]
    | _ + 1 => simp [combinations]
  | cons x xs ih =>
    intro k
    match k with
    | 0 => simp [combinations]
    | j + 1 =>
      rw [List.map_cons]
      rw [show combinations (j + 1) (g x :: xs.map g) =
        (combinations j (xs.map g)).map (fun c => g x :: c) ++
          combinations (j + 1) (xs.map g) from rfl]
      rw [show combinations (j + 1) (x :: xs) =
        (combinations j xs).map (fun c => x :: c) ++ combinations (j + 1) xs from rfl]
      rw [ih j, ih (j + 1)]
      simp [List.map_map, Function.comp]

theorem map_getD_range (owners : List String) :
    (List.range owners.length).map (fun i => owners.getD i "") = owners := by
  induction owners with
  | nil => simp
  | cons x xs ih =>
    rw [List.length_cons, List.range_succ_eq_map, List.map_cons, List.map_map]
    have htail :
        List.map ((fun i => (x :: xs).getD i "") ∘ Nat.succ) (List.range xs.length) = xs := by
      have hcong :
          List.map ((fun i => (x :: xs).getD i "") ∘ Nat.succ) (List.range xs.length) =
            List.map (fun i => xs.getD i "") (List.range xs.length) :=
        List.map_congr_left (fun i _ => by simp [Function.comp, List.getD_cons_succ])
      rw [hcong, ih]
    rw [htail, List.getD_cons_zero]

theorem ownerCombinations_map {α β : Type} (g : α → β) (l : List α) (k : Nat) :
    ownerCombinations (l.map g) k = (ownerCombinations l k).map (List.map g) := by
  unfold ownerCombinations
  rw [← List.map_reverse, combinations_map, List.map_reverse]

theorem ownerCombinations_positional (owners : List String) (k : Nat) :
    ownerCombinations owners k =
      (ownerCombinations (List.range owners.length) k).map
        (List.map (fun i => owners.getD i "")) := by
  conv_lhs => rw [← map_getD_range owners]
  rw [ownerCombinations_map]

/-- Claim C4: `_owner_combinations` enumerates size-`k` combinations of the
sorted owner list as the reverse of the combinations of the reversed list;
the enumeration depends only on positions (it is the image of the
enumeration over the index list `range n` under indexing), over the index
list it is non-decreasing in the maximum score (index) of the members, and
on `["0", "1", "2", "3"]` with `k = 2` it is exactly the order the spec
lists. -/
theorem ownerCombinations_spec :
    (∀ n k : Nat, (ownerCombinations (List.range n) k).Pairwise
        (fun c d => maxNat c ≤ maxNat d)) ∧
    (∀ (owners : List String) (k : Nat), ownerCombinations owners k =
        (ownerCombinations (List.range owners.length) k).map
          (List.map (fun i => owners.getD i ""))) ∧
    ownerCombinations ["0", "1", "2", "3"] 2 =
      [["1", "0"], ["2", "0"], ["2", "1"], ["3", "0"], ["3", "1"], ["3", "2"]] :=
  ⟨ownerCombinations_range_sorted, ownerCombinations_positional, by decide⟩

end DepotTools

namespace SplitCl

/-! ### Round trip of the plan serializer -/

theorem mk_data (s : String) : String.mk s.data = s := rfl

theorem splitSep_ne_nil {α : Type} [DecidableEq α] (sep : α) (l : List α) :
    splitSep sep l ≠ [] := by
  cases l with
  | nil => simp [splitSep]
  | cons a as =>
    rw [show splitSep sep (a :: as) = (match splitSep sep as with
      | [] => [[]]
      | g :: gs => if a = sep then [] :: g :: gs else (a :: g) :: gs) from rfl]
    cases hsp : splitSep sep as with
    | nil => simp
    | cons g gs => by_cases ha : a = sep <;> simp [ha]

theorem splitSep_no_sep {α : Type} [DecidableEq α] (sep : α) :
    ∀ x : List α, sep ∉ x → splitSep sep x = [x] := by
  intro x
  induction x with
  | nil => intro _; rfl
  | cons a as ih =>
    intro h
    have ha : a ≠ sep := fun he => h (he ▸ List.mem_cons_self a as)
    have has : sep ∉ as := fun hm => h (List.mem_cons_of_mem a hm)
    rw [show splitSep sep (a :: as) = (match splitSep sep as with
      | [] => [[]]
      | g :: gs => if a = sep then [] :: g :: gs else (a :: g) :: gs) from rfl]
    rw [ih has]
    simp [ha]

theorem splitSep_append_sep {α : Type} [DecidableEq α] (sep : α) :
    ∀ (x r : List α), sep ∉ x →
      splitSep sep (x ++ sep :: r) = x :: splitSep sep r := by
  intro x
  induction x with
  | nil =>
    intro r _
    rw [List.nil_append]
    rw [show splitSep sep (sep :: r) = (match splitSep sep r with
      | [] => [[]]
      | g :: gs => if sep = sep then [] :: g :: gs else (sep :: g) :: gs) from rfl]
    cases hsp : splitSep sep r with
    | nil => exact absurd hsp (splitSep_ne_nil sep r)
    | cons g gs => simp
  | cons a as ih =>
    intro r h
    have ha : a ≠ sep := fun he => h (he ▸ List.mem_cons_self a as)
    have has : sep ∉ as := fun hm => h (List.mem_cons_of_mem a hm)
    rw [List.cons_append]
    rw [show splitSep sep (a :: (as ++ sep :: r)) =
      (match splitSep sep (as ++ sep :: r) with
      | [] => [[]]
      | g :: gs => if a = sep then [] :: g :: gs else (a :: g) :: gs) from rfl]
    rw [ih r has]
    simp [ha]

theorem splitSep_joinSep {α : Type} [DecidableEq α] (sep : α) :
    ∀ xs : List (List α), xs ≠ [] → (∀ x ∈ xs, sep ∉ x) →
      splitSep sep (joinSep sep xs) = xs := by
  intro xs
  induction xs with
  | nil => intro h _; exact absurd rfl h
  | cons x ys ih =>
    intro _ hmem
    cases ys with
    | nil => exact splitSep_no_sep sep x (hmem x (List.mem_cons_self x []))
    | cons y t =>
      rw [show joinSep sep (x :: y :: t) = x ++ sep :: joinSep sep (y :: t) from rfl]
      rw [splitSep_append_sep sep x _ (hmem x (List.mem_cons_self _ _))]
      rw [ih (by simp) (fun z hz => hmem z (List.mem_cons_of_mem x hz))]

theorem mem_joinSep {α : Type} (sep : α) :
    ∀ (xs : List (List α)) (a : α), a ∈ joinSep sep xs → a = sep ∨ ∃ x ∈ xs, a ∈ x := by
  intro xs
  induction xs with
  | nil =>
    intro a h
    cases h
  | cons x ys ih =>
    intro a h
    cases ys with
    | nil => exact Or.inr ⟨x, List.mem_cons_self _ _, h⟩
    | cons y t =>
      rw [show joinSep sep (x :: y :: t) = x ++ sep :: joinSep sep (y :: t) from rfl] at h
      rcases List.mem_append.1 h with h1 | h2
      · exact Or.inr ⟨x, List.mem_cons_self _ _, h1⟩
      · rcases List.mem_cons.1 h2 with rfl | h3
        · exact Or.inl rfl
        · rcases ih a h3 with h4 | ⟨z, hz, hazᵢ⟩
          · exact Or.inl h4
          · exact Or.inr ⟨z, List.mem_cons_of_mem _ hz, hazᵢ⟩

theorem dropPrefixChars_append (p r : List Char) : dropPrefixChars p (p ++ r) = some r := by
  induction p with
  | nil => rfl
  | cons c cs ih => simp [dropPrefixChars, ih]

theorem splitFirst_append (c : Char) :
    ∀ (a b : List Char), c ∉ a → splitFirst c (a ++ c :: b) = some (a, b) := by
  intro a
  induction a with
  | nil =>
    intro b _
    simp [splitFirst]
  | cons x xs ih =>
    intro b h
    have hx : x ≠ c := fun he => h (he ▸ List.mem_cons_self x xs)
    have hxs : c ∉ xs := fun hm => h (List.mem_cons_of_mem x hm)
    simp [splitFirst, hx, ih b hxs]

theorem parseReviewers_format (rs : List String) (hne : rs ≠ [])
    (hc : ∀ r ∈ rs, ',' ∉ r.data) :
    parseReviewers (formatReviewers rs) = .ok rs := by
  have h1 : parseReviewers (formatReviewers rs) =
      (match dropPrefixChars "Reviewers: ".data
          ("Reviewers: ".data ++ joinSep ',' (rs.map (fun r => r.data))) with
      | none => Except.error "expected a reviewer line"
      | some rest => Except.ok ((splitSep ',' rest).map (fun cs => String.mk cs))) := rfl
  rw [h1, dropPrefixChars_append]
  have hne2 : rs.map (fun r => r.data) ≠ [] := by
    cases rs with
    | nil => exact absurd rfl hne
    | cons a as => simp
  have hc2 : ∀ x ∈ rs.map (fun r => r.data), ',' ∉ x := by
    intro x hx
    rcases List.mem_map.1 hx with ⟨r, hr, rfl⟩
    exact hc r hr
  rw [show (match some (joinSep ',' (rs.map (fun r => r.data))) with
      | none => Except.error "expected a reviewer line"
      | some rest => Except.ok ((splitSep ',' rest).map (fun cs => String.mk cs))) =
    Except.ok ((splitSep ',' (joinSep ',' (rs.map (fun r => r.data)))).map
      (fun cs => String.mk cs)) from rfl]
  rw [splitSep_joinSep ',' (rs.map (fun r => r.data)) hne2 hc2, List.map_map]
  have hid : rs.map ((fun cs => String.mk cs) ∘ (fun r => r.data)) = rs := by
    have := List.map_congr_left (l := rs)
      (f := ((fun cs => String.mk cs) ∘ (fun r => r.data))) (g := id)
      (fun r _ => mk_data r)
    simpa using this
  rw [hid]

theorem parseFileLine_format (act path : String)
    (hact : act ∈ (["A", "M", "D"] : List String)) :
    parseFileLine (formatFileLine (act, path)) = .ok (act, path) := by
  have hnoc : ' ' ∉ act.data := by
    rcases List.mem_cons.1 hact with rfl | hact2
    · decide
    rcases List.mem_cons.1 hact2 with rfl | hact3
    · decide
    rcases List.mem_cons.1 hact3 with rfl | hact4
    · decide
    cases hact4
  have h1 : parseFileLine (formatFileLine (act, path)) =
      (match splitFirst ' ' (act.data ++ ' ' :: path.data) with
      | none => Except.error "malformed file line"
      | some pr =>
        if String.mk pr.1 ∈ (["A", "M", "D"] : List String) then
          Except.ok (String.mk pr.1, String.mk pr.2)
        else Except.error "unknown action") := rfl
  rw [h1, splitFirst_append ' ' act.data path.data hnoc]
  rw [show (match some (act.data, path.data) with
      | none => Except.error "malformed file line"
      | some pr =>
        if String.mk pr.1 ∈ (["A", "M", "D"] : List String) then
          Except.ok (String.mk pr.1, String.mk pr.2)
        else Except.error "unknown action") =
    (if String.mk act.data ∈ (["A", "M", "D"] : List String) then
        Except.ok (String.mk act.data, String.mk path.data)
      else Except.error "unknown action") from rfl]
  rw [mk_data, mk_data, if_pos hact]

theorem mapExcept_format {α : Type} (parse : String → Except String α) (fmt : α → String)
    (l : List α) (h : ∀ a ∈ l, parse (fmt a) = .ok a) :
    mapExcept parse (l.map fmt) = Except.ok l := by
  induction l with
  | nil => rfl
  | cons a as ih =>
    rw [List.map_cons]
    rw [show mapExcept parse (fmt a :: as.map fmt) =
      (parse (fmt a)).bind (fun y => (mapExcept parse (as.map fmt)).bind
        (fun ys => Except.ok (y :: ys))) from rfl]
    rw [h a (List.mem_cons_self a as), ih (fun b hb => h b (List.mem_cons_of_mem a hb))]
    rfl

theorem parseBlock_format (cl : CLInfo) (hwf : CLInfoWF cl) :
    parseBlock (formatCLInfo cl) = .ok cl := by
  obtain ⟨hrev, hcomma, _, _, hacts⟩ := hwf
  have h1 : parseBlock (formatCLInfo cl) =
      (parseReviewers (formatReviewers cl.reviewers)).bind (fun rs =>
        (mapExcept parseFileLine (cl.files.map formatFileLine)).bind (fun fs =>
          Except.ok { reviewers := rs, description := cl.description, files := fs })) := rfl
  rw [h1, parseReviewers_format cl.reviewers hrev hcomma]
  rw [mapExcept_format parseFileLine formatFileLine cl.files
    (fun af haf => parseFileLine_format af.1 af.2 (hacts af haf))]
  rfl

theorem formatCLInfo_no_blank (cl : CLInfo) (hwf : CLInfoWF cl) :
    ("" : String) ∉ formatCLInfo cl := by
  obtain ⟨_, _, hdesc, _, _⟩ := hwf
  intro h
  rcases List.mem_cons.1 h with h1 | h2
  · have hd := congrArg String.data h1
    simp [formatReviewers] at hd
  rcases List.mem_cons.1 h2 with h3 | h4
  · exact hdesc h3.symm
  rcases List.mem_map.1 h4 with ⟨af, _, haf⟩
  have hd := congrArg String.data haf
  simp [formatFileLine] at hd

theorem formatCLInfo_no_comment (cl : CLInfo) (hwf : CLInfoWF cl) :
    ∀ line ∈ formatCLInfo cl, startsWithHash line = false := by
  obtain ⟨_, _, _, hhash, _⟩ := hwf
  intro line hline
  rcases List.mem_cons.1 hline with rfl | hline2
  · rfl
  rcases List.mem_cons.1 hline2 with rfl | hline3
  · exact hhash
  rcases List.mem_map.1 hline3 with ⟨af, _, rfl⟩
  rfl

theorem mapExcept_parseBlock_format (plan : List CLInfo) (hwf : planWF plan) :
    mapExcept parseBlock (plan.map formatCLInfo) = .ok plan := by
  induction plan with
  | nil => rfl
  | cons cl rest ih =>
    rw [List.map_cons]
    rw [show mapExcept parseBlock (formatCLInfo cl :: rest.map formatCLInfo) =
      (parseBlock (formatCLInfo cl)).bind (fun y =>
        (mapExcept parseBlock (rest.map formatCLInfo)).bind (fun ys =>
          Except.ok (y :: ys))) from rfl]
    rw [parseBlock_format cl (hwf cl (List.mem_cons_self cl rest))]
    rw [ih (fun c hc => hwf c (List.mem_cons_of_mem cl hc))]
    rfl

/-- Claim C8: round-trip law of the plan serializer. For every split plan
whose blocks satisfy the data-model constraints of the spec (nonempty
reviewer list, comma-free reviewer emails, a nonempty non-comment description
line, diff actions A, M, D) and in which no file appears in more than one
block, parsing the formatted plan returns exactly the plan. -/
theorem parseSplittings_formatSplitting (plan : List CLInfo) (hwf : planWF plan)
    (hnd : noCrossDuplicate plan = true) :
    parseSplittings (formatSplitting plan) = .ok plan := by
  cases hplan : plan with
  | nil => rfl
  | cons cl0 rest =>
    subst hplan
    have hfilter :
        (formatSplitting (cl0 :: rest)).filter (fun l => !startsWithHash l) =
          formatSplitting (cl0 :: rest) := by
      rw [List.filter_eq_self]
      intro line hline
      rcases mem_joinSep "" ((cl0 :: rest).map formatCLInfo) line hline with rfl | ⟨x, hx, hlx⟩
      · rfl
      · rcases List.mem_map.1 hx with ⟨cl, hcl, rfl⟩
        rw [formatCLInfo_no_comment cl (hwf cl hcl) line hlx]
        rfl
    have hsplit :
        splitSep "" (formatSplitting (cl0 :: rest)) = (cl0 :: rest).map formatCLInfo := by
      apply splitSep_joinSep "" ((cl0 :: rest).map formatCLInfo) (by simp)
      intro x hx
      rcases List.mem_map.1 hx with ⟨cl, hcl, rfl⟩
      exact formatCLInfo_no_blank cl (hwf cl hcl)
    have hgroups :
        ((cl0 :: rest).map formatCLInfo).filter (fun g => !g.isEmpty) =
          (cl0 :: rest).map formatCLInfo := by
      rw [List.filter_eq_self]
      intro g hg
      rcases List.mem_map.1 hg with ⟨cl, _, rfl⟩
      rfl
    have hmain : parseSplittings (formatSplitting (cl0 :: rest)) =
        (match mapExcept parseBlock
            (((splitSep "" ((formatSplitting (cl0 :: rest)).filter
              (fun l => !startsWithHash l))).filter (fun g => !g.isEmpty))) with
        | .error e => Except.error e
        | .ok cls =>
          if noCrossDuplicate cls then Except.ok cls
          else Except.error "file appears in multiple CLs") := rfl
    rw [hmain, hfilter, hsplit, hgroups,
      mapExcept_parseBlock_format (cl0 :: rest) hwf]
    rw [show (match Except.ok (cl0 :: rest) with
        | Except.error e => Except.error e
        | Except.ok cls =>
          if noCrossDuplicate cls then Except.ok cls
          else Except.error "file appears in multiple CLs") =
      (if noCrossDuplicate (cl0 :: rest) then Except.ok (cl0 :: rest)
        else Except.error "file appears in multiple CLs") from rfl]
    rw [hnd]
    rfl

/-- Claim C8, witness: the round trip on a concrete two-block plan shaped
like the blocks of the repository test fixtures. -/
theorem parseSplittings_formatSplitting_witness :
    parseSplittings (formatSplitting
      [{ reviewers := ["a@example.com"], description := "[chrome/browser]",
         files := [("M", "chrome/browser/a.cc"), ("M", "chrome/browser/b.cc")] },
       { reviewers := ["a@example.com", "b@example.com"], description := "[foo]",
         files := [("M", "foo/browser/a.cc"), ("D", "foo/bar/c.h")] }]) =
      .ok
      [{ reviewers := ["a@example.com"], description := "[chrome/browser]",
         files := [("M", "chrome/browser/a.cc"), ("M", "chrome/browser/b.cc")] },
       { reviewers := ["a@example.com", "b@example.com"], description := "[foo]",
         files := [("M", "foo/browser/a.cc"), ("D", "foo/bar/c.h")] }] :=
  parseSplittings_formatSplitting _ (by decide) (by decide)

end SplitCl
